import Mathlib

/-!
Verification of the core matching algorithm of `match_episodes.py`.

The program aligns an ordered playlist of episode titles against a pool of
MP3 filenames by fuzzy matching.  Titles are modelled as `List Char`
(Python `str`), scores as `ℚ` (Python `float`; all the weights involved are
exact decimal fractions, so the rational model is the standard shallow
embedding).  Python's `re` patterns used by the source are all anchored,
deterministic patterns (any backtracking provably cannot change the result,
as argued in the comments of each definition), so each one is embedded as a
direct recursive parser on `List Char`.

Modelling notes:
* Python `\s` and `str.split()` accept some non-ASCII whitespace; the claims
  under study only involve ASCII whitespace, which `isWs` models.
* Python `\d` and `str.isdigit` accept some non-ASCII digits; `Char.isDigit`
  models the ASCII digits, which is what every claim exercises.
* `str.lower` is modelled by `Char.toLower` (ASCII case folding).
* `difflib.SequenceMatcher.ratio` is modelled by `seqRatio` below, following
  the documented semantics of `find_longest_match` / `get_matching_blocks`
  for the no-junk case (autojunk only engages at length ≥ 200).
-/

/-- Convenience: the character list of a string literal. -/
def lc (s : String) : List Char := s.data

/-- ASCII whitespace, the fragment of Python `\s` / `str.split()` relevant here. -/
def isWs (c : Char) : Bool :=
  c == ' ' || c == '\t' || c == '\n' || c == '\r' || c == '\x0b' || c == '\x0c'

/-- Complement of `isWs`, used by the `str.split()` model. -/
def notWs (c : Char) : Bool := !(isWs c)

/-- The two separator characters of the brand-suffix pattern `[｜|]`. -/
def isSep (c : Char) : Bool := c == '|' || c == '｜'

/-- Case-insensitive literal matcher: `stripCI pat s` returns the remainder of
`s` after a case-insensitive match of `pat` at its head, or `none`.  This is
the model of a fixed literal inside a `re.IGNORECASE` pattern. -/
def stripCI : List Char → List Char → Option (List Char)
  | [], s => some s
  | _ :: _, [] => none
  | p :: ps, c :: cs => if Char.toLower c = Char.toLower p then stripCI ps cs else none

/-- The brand literal of the suffix pattern, lower-cased. -/
def brandChars : List Char := lc "behind the bastards"

/-- Whole-string match of `\s*[｜|]\s*BEHIND THE BASTARDS\s*$` (re.IGNORECASE)
starting at the head of `s` and reaching the end of `s`.  The pattern is
deterministic: each `\s*` is followed by a non-whitespace requirement, so the
greedy reading is the only possible one. -/
def sepSuffix (s : List Char) : Bool :=
  match s.dropWhile isWs with
  | [] => false
  | c :: rest =>
    isSep c &&
      (match stripCI brandChars (rest.dropWhile isWs) with
       | some r => r.all isWs
       | none => false)

/-- Model of `re.sub(r'\s*[｜|]\s*BEHIND THE BASTARDS\s*$', '', title, re.IGNORECASE)`:
because the pattern is `$`-anchored, `re.sub` deletes the suffix starting at the
leftmost position from which the pattern matches to the end (at most one
deletion).  `brandSub` keeps characters until the first such position. -/
def brandSub : List Char → List Char
  | [] => []
  | c :: cs => if sepSuffix (c :: cs) then [] else c :: brandSub cs

/-- Model of the chained `str.replace` calls folding `：`, `？`, `｜` to ASCII.
The three replaced characters are distinct from every replacement output, so
the chain is a single character map. -/
def foldChar (c : Char) : Char :=
  if c = '：' then ':' else if c = '？' then '?' else if c = '｜' then '|' else c

/-- The unicode-punctuation folding pass of `normalize_title`. -/
def foldUnicode (s : List Char) : List Char := s.map foldChar

/-- Accumulator loop of the `str.split()` model: `cur` is the word being read
(possibly empty), `s` the rest of the input. -/
def wordsWsGo (cur : List Char) : List Char → List (List Char)
  | [] => if cur.isEmpty then [] else [cur]
  | c :: cs =>
    if isWs c then
      if cur.isEmpty then wordsWsGo [] cs else cur :: wordsWsGo [] cs
    else wordsWsGo (cur ++ [c]) cs

/-- Model of Python `str.split()` (split on whitespace runs, dropping empties). -/
def wordsWs (s : List Char) : List (List Char) := wordsWsGo [] s

/-- Model of `' '.join(words)`. -/
def joinSp : List (List Char) → List Char
  | [] => []
  | [w] => w
  | w :: ws => w ++ ' ' :: joinSp ws

/-- Model of Python `str.strip()` (remove leading and trailing whitespace). -/
def trimWs (s : List Char) : List Char :=
  ((s.dropWhile isWs).reverse.dropWhile isWs).reverse

/-- Model of `' '.join(title.split())` followed by `.strip()`. -/
def collapseWs (s : List Char) : List Char := trimWs (joinSp (wordsWs s))

/-- Model of `normalize_title` (match_episodes.py lines 60-71): strip the brand
suffix, fold full-width punctuation, collapse whitespace, trim. -/
def normalize_title (s : List Char) : List Char :=
  collapseWs (foldUnicode (brandSub s))

/-- The word table of `extract_part_number`, in the order of the regex
alternation `One|Two|Three|Four|Five|Six|Seven|Eight|Nine|Ten`. -/
def partWords : List (List Char × Nat) :=
  [(lc "one", 1), (lc "two", 2), (lc "three", 3), (lc "four", 4), (lc "five", 5),
   (lc "six", 6), (lc "seven", 7), (lc "eight", 8), (lc "nine", 9), (lc "ten", 10)]

/-- Model of `re.sub(r'^Part (One|...|Ten|\d+):\s*', '', title, re.IGNORECASE)`:
note the single literal space after `Part` and the ASCII-only colon.  No word
of the alternation is a prefix of another and no word starts with a digit, so
at most one alternative can match and backtracking is irrelevant. -/
def partSub (s : List Char) : List Char :=
  match stripCI (lc "part ") s with
  | none => s
  | some rest =>
    match partWords.findSome? (fun w =>
      match stripCI w.1 rest with
      | some (':' :: r) => some r
      | _ => none) with
    | some r => r.dropWhile isWs
    | none =>
      if (rest.takeWhile Char.isDigit).isEmpty then s
      else
        match rest.dropWhile Char.isDigit with
        | ':' :: r => r.dropWhile isWs
        | _ => s

/-- Model of `re.sub(r'^Pt\s+\d+[:：]\s*', '', title, re.IGNORECASE)`.  The
`\s+` and `\d+` are followed by a character of a disjoint class, so the greedy
reading is the only possible one. -/
def ptSub (s : List Char) : List Char :=
  match stripCI (lc "pt") s with
  | none => s
  | some rest =>
    if (rest.takeWhile isWs).isEmpty then s
    else
      let r1 := rest.dropWhile isWs
      if (r1.takeWhile Char.isDigit).isEmpty then s
      else
        match r1.dropWhile Char.isDigit with
        | c :: r2 => if c = ':' ∨ c = '：' then r2.dropWhile isWs else s
        | [] => s

/-- Model of `normalize_for_comparison` (match_episodes.py lines 74-80): the
Part-form sub, then the Pt-form sub, then `normalize_title`. -/
def normalize_for_comparison (s : List Char) : List Char :=
  normalize_title (ptSub (partSub s))

/-- Decimal value of a digit run, the model of Python `int` on a `\d+` group. -/
def digitsToNat (ds : List Char) : Nat :=
  ds.foldl (fun a c => a * 10 + (c.toNat - '0'.toNat)) 0

/-- The `^Part\s+(One|...|Ten|\d+)[:：]` branch of `extract_part_number`
(match_episodes.py lines 47-50): word forms are looked up in the table, digit
forms are converted with `int`. -/
def partNumberFromPart (s : List Char) : Option Nat :=
  match stripCI (lc "part") s with
  | none => none
  | some rest =>
    if (rest.takeWhile isWs).isEmpty then none
    else
      let r1 := rest.dropWhile isWs
      match partWords.findSome? (fun w =>
        match stripCI w.1 r1 with
        | some (c :: _) => if c = ':' ∨ c = '：' then some w.2 else none
        | _ => none) with
      | some n => some n
      | none =>
        let ds := r1.takeWhile Char.isDigit
        if ds.isEmpty then none
        else
          match r1.dropWhile Char.isDigit with
          | c :: _ => if c = ':' ∨ c = '：' then some (digitsToNat ds) else none
          | [] => none

/-- The `^Pt\s+(\d+)[:：]` branch of `extract_part_number`
(match_episodes.py lines 53-55). -/
def partNumberFromPt (s : List Char) : Option Nat :=
  match stripCI (lc "pt") s with
  | none => none
  | some rest =>
    if (rest.takeWhile isWs).isEmpty then none
    else
      let r1 := rest.dropWhile isWs
      let ds := r1.takeWhile Char.isDigit
      if ds.isEmpty then none
      else
        match r1.dropWhile Char.isDigit with
        | c :: _ => if c = ':' ∨ c = '：' then some (digitsToNat ds) else none
        | [] => none

/-- Model of `extract_part_number` (match_episodes.py lines 38-57): the Part
branch is tried first, then the Pt branch. -/
def extract_part_number (s : List Char) : Option Nat :=
  match partNumberFromPart s with
  | some n => some n
  | none => partNumberFromPt s

/-- Length of the common run of equal characters at the heads of two lists:
how far a matching block extends from a given pair of positions. -/
def commonRun : List Char → List Char → Nat
  | a :: as, b :: bs => if a = b then commonRun as bs + 1 else 0
  | _, _ => 0

/-- All pairs `(i, j)` with `i < n`, `j < m`, in lexicographic order (the scan
order of `find_longest_match`: `i` ascending outer, `j` ascending inner). -/
def allPairs (n m : Nat) : List (Nat × Nat) :=
  (List.range n).flatMap (fun i => (List.range m).map (fun j => (i, j)))

/-- Model of `difflib.SequenceMatcher.find_longest_match` on whole strings with
no junk (autojunk only triggers for strings of length ≥ 200, far above every
title involved): among all maximal matching blocks `(i, j, size)` it returns
the one that starts earliest in `a` and, among those, earliest in `b` —
obtained here by a lexicographic scan keeping the first strict maximum. -/
def flm (a b : List Char) : Nat × Nat × Nat :=
  (allPairs a.length b.length).foldl
    (fun best p =>
      let k := commonRun (a.drop p.1) (b.drop p.2)
      if best.2.2 < k then (p.1, p.2, k) else best)
    (0, 0, 0)

/-- Fuel-indexed total size of the matching blocks of
`difflib.SequenceMatcher.get_matching_blocks`: recursively take the longest
match and recurse on the two flanks.  Each recursive call strictly decreases
`a.length + b.length` (see `flm_bounds` and `matchedSizeF_fuel_irrelevant`
below), so fuel `a.length + b.length` always suffices and the fuel pattern is
only a device to keep the recursion structural. -/
def matchedSizeF : Nat → List Char → List Char → Nat
  | 0, _, _ => 0
  | fuel + 1, a, b =>
    let t := flm a b
    if t.2.2 = 0 then 0
    else
      matchedSizeF fuel (a.take t.1) (b.take t.2.1) + t.2.2
        + matchedSizeF fuel (a.drop (t.1 + t.2.2)) (b.drop (t.2.1 + t.2.2))

/-- Total matched size `M` of `SequenceMatcher.get_matching_blocks`. -/
def matchedSize (a b : List Char) : Nat := matchedSizeF (a.length + b.length) a b

/-- Model of `difflib.SequenceMatcher(None, a, b).ratio()`:
`2M / (len(a)+len(b))`, and `1.0` when both strings are empty
(difflib returns 1.0 when the total length is zero). -/
def seqRatio (a b : List Char) : ℚ :=
  if a.length + b.length = 0 then 1
  else 2 * (matchedSize a b : ℚ) / ((a.length : ℚ) + (b.length : ℚ))

/-- Lower-casing of a title, the model of Python `str.lower`. -/
def toLowerStr (s : List Char) : List Char := s.map Char.toLower

/-- The weighted blend of `similarity_score` (match_episodes.py lines 97-109):
`0.7 * ratio(normalize_title ..) + 0.3 * ratio(normalize_for_comparison ..)`,
both lower-cased. -/
def blendScore (a b : List Char) : ℚ :=
  (7 : ℚ) / 10 * seqRatio (toLowerStr (normalize_title a)) (toLowerStr (normalize_title b))
    + (3 : ℚ) / 10 *
      seqRatio (toLowerStr (normalize_for_comparison a)) (toLowerStr (normalize_for_comparison b))

/-- The mismatched-part-number penalty of `similarity_score`
(match_episodes.py lines 90-95): `base_score * 0.3` where `base_score` is the
ratio of the part-stripped, lower-cased titles. -/
def penaltyScore (a b : List Char) : ℚ :=
  seqRatio (toLowerStr (normalize_for_comparison a)) (toLowerStr (normalize_for_comparison b))
    * ((3 : ℚ) / 10)

/-- Model of `similarity_score` (match_episodes.py lines 83-109). -/
def similarity_score (a b : List Char) : ℚ :=
  match extract_part_number a, extract_part_number b with
  | some pa, some pb => if pa = pb then blendScore a b else penaltyScore a b
  | _, _ => blendScore a b

/-- Model of `mp3_file.replace('.mp3', '')` (match_episodes.py line 123):
Python `str.replace` removes every non-overlapping occurrence, scanning left
to right — not merely a trailing extension. -/
def replaceMp3 : List Char → List Char
  | '.' :: 'm' :: 'p' :: '3' :: rest => replaceMp3 rest
  | c :: cs => c :: replaceMp3 cs
  | [] => []

/-- The score `find_best_match` computes for one candidate filename. -/
def candScore (name f : List Char) : ℚ := similarity_score name (replaceMp3 f)

/-- The loop state of `find_best_match`: `best_score` starts at `0`;
`best` bundles `best_match` and `best_idx`, which the source always assigns
together (both `None` initially). -/
structure FBMState where
  best_score : ℚ
  best : Option (List Char × Nat)
deriving DecidableEq

/-- The scan loop of `find_best_match` (match_episodes.py lines 118-129):
`idx` is the index of the head of the remaining file list; consumed indices
are skipped; a candidate replaces the incumbent only on a strictly greater
score. -/
def fbmGo (name : List Char) (used : List Nat) : List (List Char) → Nat → FBMState → FBMState
  | [], _, st => st
  | f :: fs, idx, st =>
    fbmGo name used fs (idx + 1)
      (if idx ∈ used then st
       else if st.best_score < candScore name f then ⟨candScore name f, some (f, idx)⟩
       else st)

/-- Model of `find_best_match` (match_episodes.py lines 112-131). -/
def find_best_match (name : List Char) (files : List (List Char)) (used : List Nat) : FBMState :=
  fbmGo name used files 0 ⟨0, none⟩

/-- One entry of the `matches` list built by `do_matching`
(match_episodes.py lines 454-460). -/
structure MatchRecord where
  order : Nat
  playlist_name : List Char
  mp3_file : List Char
  match_score : ℚ
  file_index : Nat
deriving DecidableEq

/-- The matching pass of `do_matching` (match_episodes.py lines 446-470):
1-based enumeration of the playlist; a record is appended and the index
consumed only under Python's `if best_match:`, which is falsy both for `None`
and for the empty string. -/
def doMatchingGo (files : List (List Char)) :
    List (List Char) → Nat → List Nat → List MatchRecord → List MatchRecord
  | [], _, _, acc => acc.reverse
  | t :: ts, i, used, acc =>
    match (find_best_match t files used).best with
    | some (m, idx) =>
      if m = [] then doMatchingGo files ts (i + 1) used acc
      else
        doMatchingGo files ts (i + 1) (idx :: used)
          (⟨i, t, m, (find_best_match t files used).best_score, idx⟩ :: acc)
    | none => doMatchingGo files ts (i + 1) used acc

/-- The core matching pass of `do_matching`, as a function of the parsed
playlist and the extracted MP3 filename list. -/
def do_matching (playlist files : List (List Char)) : List MatchRecord :=
  doMatchingGo files playlist 1 [] []

/-- Value of the `used_indices` set of `do_matching` after processing the
targets `ts` starting from `used`: an index is consumed exactly when
`find_best_match` returns a truthy best match, mirroring branch for branch
the loop of `doMatchingGo`.  `usedAfter files (playlist.take k) []` is the
consumed set the pass has accumulated when it reaches the k-th target. -/
def usedAfter (files : List (List Char)) : List (List Char) → List Nat → List Nat
  | [], used => used
  | t :: ts, used =>
    match (find_best_match t files used).best with
    | some (m, idx) =>
      if m = [] then usedAfter files ts used else usedAfter files ts (idx :: used)
    | none => usedAfter files ts used

-- Temporary sanity checks mirroring the repository's unit tests.
example : normalize_title (lc "Episode Name | BEHIND THE BASTARDS") = lc "Episode Name" := by decide
example : normalize_title (lc "Episode Name ｜ BEHIND THE BASTARDS") = lc "Episode Name" := by decide
example : normalize_title (lc "Episode Name | behind the bastards") = lc "Episode Name" := by decide
example : normalize_title (lc "Episode： Name？ Test") = lc "Episode: Name? Test" := by decide
example : normalize_title (lc "Episode   Name    Test") = lc "Episode Name Test" := by decide
example : normalize_title (lc "") = lc "" := by decide
example : normalize_title (lc "   ") = lc "" := by decide
example : normalize_title (lc "Regular Episode Name") = lc "Regular Episode Name" := by decide
example : normalize_title (lc "| BEHIND THE BASTARDS") = lc "" := by decide
example : extract_part_number (lc "Part One: Title") = some 1 := by decide
example : extract_part_number (lc "Part Two: Title") = some 2 := by decide
example : extract_part_number (lc "Part 5: Title") = some 5 := by decide
example : extract_part_number (lc "Pt 3: Title") = some 3 := by decide
example : extract_part_number (lc "Pt 42: Title") = some 42 := by decide
example : extract_part_number (lc "part one: title") = some 1 := by decide
example : extract_part_number (lc "PART TWO: TITLE") = some 2 := by decide
example : extract_part_number (lc "Part One： Title") = some 1 := by decide
example : extract_part_number (lc "No Part") = none := by decide
example : extract_part_number (lc "Title Part One: Something") = none := by decide
example : extract_part_number (lc "Part Eleven: Title") = none := by decide
example : extract_part_number (lc "Part One Title") = none := by decide
example : extract_part_number (lc "Pt 1 Title") = none := by decide
example : extract_part_number (lc "Part 0: X") = some 0 := by decide
example : normalize_for_comparison (lc "Part One: Episode Name") = lc "Episode Name" := by decide
example : normalize_for_comparison (lc "Part 5: Episode Name") = lc "Episode Name" := by decide
example : normalize_for_comparison (lc "Pt 3: Episode Name") = lc "Episode Name" := by decide
example : normalize_for_comparison (lc "Part One: Episode Name | BEHIND THE BASTARDS") = lc "Episode Name" := by decide
example : normalize_for_comparison (lc "Episode Name | BEHIND THE BASTARDS") = lc "Episode Name" := by decide
example : normalize_for_comparison (lc "Part One：Ep") = lc "Part One:Ep" := by decide

/-! ### Generic helpers -/

theorem foldl_preserve {α β : Type} (P : β → Prop) (f : β → α → β) (l : List α) :
    ∀ init : β, P init → (∀ st x, x ∈ l → P st → P (f st x)) → P (l.foldl f init) := by
  induction l with
  | nil => intro init h _; simpa using h
  | cons x xs ih =>
    intro init h hstep
    simp only [List.foldl_cons]
    exact ih (f init x) (hstep init x (List.mem_cons_self x xs) h)
      (fun st y hy hst => hstep st y (List.mem_cons_of_mem x hy) hst)

theorem commonRun_le (a b : List Char) : commonRun a b ≤ a.length ∧ commonRun a b ≤ b.length := by
  induction a generalizing b with
  | nil => cases b <;> simp [commonRun]
  | cons c cs ih =>
    cases b with
    | nil => simp [commonRun]
    | cons d ds =>
      simp only [commonRun, List.length_cons]
      split
      · have := ih ds
        omega
      · omega

theorem mem_allPairs {n m : Nat} {p : Nat × Nat} (h : p ∈ allPairs n m) : p.1 < n ∧ p.2 < m := by
  simp only [allPairs, List.mem_flatMap, List.mem_map, List.mem_range] at h
  obtain ⟨i, hi, j, hj, rfl⟩ := h
  exact ⟨hi, hj⟩

theorem flm_bounds (a b : List Char) :
    (flm a b).2.2 ≠ 0 →
      (flm a b).1 + (flm a b).2.2 ≤ a.length ∧ (flm a b).2.1 + (flm a b).2.2 ≤ b.length := by
  refine foldl_preserve
    (fun t : Nat × Nat × Nat =>
      t.2.2 ≠ 0 → t.1 + t.2.2 ≤ a.length ∧ t.2.1 + t.2.2 ≤ b.length)
    _ (allPairs a.length b.length) (0, 0, 0) (fun h => absurd rfl h) ?_
  intro st p hp hst
  dsimp only
  split
  · intro hk
    dsimp only at hk ⊢
    obtain ⟨hb1, hb2⟩ := mem_allPairs hp
    have h1 := (commonRun_le (a.drop p.1) (b.drop p.2)).1
    have h2 := (commonRun_le (a.drop p.1) (b.drop p.2)).2
    simp only [List.length_drop] at h1 h2
    constructor <;> omega
  · exact hst

theorem matchedSizeF_nil (f : Nat) : matchedSizeF f [] [] = 0 := by
  cases f <;> rfl

/-- Fuel irrelevance for `matchedSizeF`: any fuel at least `a.length + b.length`
computes the same value, so `matchedSize` is the total matched size of the
terminating difflib recursion and the fuel is not an approximation. -/
theorem matchedSizeF_fuel_irrelevant (f1 : Nat) :
    ∀ (f2 : Nat) (a b : List Char), a.length + b.length ≤ f1 → a.length + b.length ≤ f2 →
      matchedSizeF f1 a b = matchedSizeF f2 a b := by
  induction f1 with
  | zero =>
    intro f2 a b h1 _
    have ha : a = [] := by cases a <;> simp_all
    have hb : b = [] := by cases b <;> simp_all
    subst ha; subst hb
    rw [matchedSizeF_nil, matchedSizeF_nil]
  | succ f ih =>
    intro f2 a b h1 h2
    cases f2 with
    | zero =>
      have ha : a = [] := by cases a <;> simp_all
      have hb : b = [] := by cases b <;> simp_all
      subst ha; subst hb
      rw [matchedSizeF_nil, matchedSizeF_nil]
    | succ g =>
      simp only [matchedSizeF]
      by_cases hk : (flm a b).2.2 = 0
      · simp [hk]
      · simp only [if_neg hk]
        have hb := flm_bounds a b hk
        have hta : (a.take (flm a b).1).length + (b.take (flm a b).2.1).length
            ≤ a.length + b.length - 2 := by
          simp only [List.length_take]
          omega
        have htb : (a.drop ((flm a b).1 + (flm a b).2.2)).length
            + (b.drop ((flm a b).2.1 + (flm a b).2.2)).length ≤ a.length + b.length - 2 := by
          simp only [List.length_drop]
          omega
        rw [ih g _ _ (by omega) (by omega), ih g _ _ (by omega) (by omega)]

theorem seqRatio_nonneg (a b : List Char) : 0 ≤ seqRatio a b := by
  unfold seqRatio
  split
  · norm_num
  · apply div_nonneg
    · positivity
    · positivity

theorem seqRatio_eval {a b : List Char} {m p q : Nat}
    (hm : matchedSize a b = m) (ha : a.length = p) (hb : b.length = q) (h : p + q ≠ 0) :
    seqRatio a b = 2 * (m : ℚ) / ((p : ℚ) + (q : ℚ)) := by
  unfold seqRatio
  rw [hm, ha, hb, if_neg h]

theorem blendScore_nonneg (a b : List Char) : 0 ≤ blendScore a b := by
  unfold blendScore
  have h1 := seqRatio_nonneg (toLowerStr (normalize_title a)) (toLowerStr (normalize_title b))
  have h2 := seqRatio_nonneg (toLowerStr (normalize_for_comparison a))
    (toLowerStr (normalize_for_comparison b))
  have e1 : (0 : ℚ) ≤ 7 / 10 := by norm_num
  have e2 : (0 : ℚ) ≤ 3 / 10 := by norm_num
  exact add_nonneg (mul_nonneg e1 h1) (mul_nonneg e2 h2)

theorem penaltyScore_nonneg (a b : List Char) : 0 ≤ penaltyScore a b := by
  unfold penaltyScore
  have h2 := seqRatio_nonneg (toLowerStr (normalize_for_comparison a))
    (toLowerStr (normalize_for_comparison b))
  exact mul_nonneg h2 (by norm_num)

theorem similarity_score_nonneg (a b : List Char) : 0 ≤ similarity_score a b := by
  unfold similarity_score
  split
  · split
    · exact blendScore_nonneg a b
    · exact penaltyScore_nonneg a b
  · exact blendScore_nonneg a b

theorem candScore_nonneg (n f : List Char) : 0 ≤ candScore n f :=
  similarity_score_nonneg n (replaceMp3 f)

/-! ### Characterization of the find_best_match scan -/

theorem fbmGo_mono (name : List Char) (used : List Nat) :
    ∀ (fs : List (List Char)) (i0 : Nat) (st : FBMState),
      st.best_score ≤ (fbmGo name used fs i0 st).best_score := by
  intro fs
  induction fs with
  | nil => intro i0 st; exact le_refl _
  | cons f fs ih =>
    intro i0 st
    simp only [fbmGo]
    refine le_trans ?_ (ih (i0 + 1) _)
    split
    · exact le_refl _
    · split
      · exact le_of_lt (by assumption)
      · exact le_refl _

theorem fbmGo_cover (name : List Char) (used : List Nat) :
    ∀ (fs : List (List Char)) (i0 : Nat) (st : FBMState) (k : Nat) (hk : k < fs.length),
      (i0 + k) ∉ used →
        candScore name (fs.get ⟨k, hk⟩) ≤ (fbmGo name used fs i0 st).best_score := by
  intro fs
  induction fs with
  | nil => intro i0 st k hk; exact absurd hk (by simp)
  | cons f fs ih =>
    intro i0 st k hk hu
    cases k with
    | zero =>
      have hu0 : i0 ∉ used := by simpa using hu
      simp only [fbmGo]
      refine le_trans ?_ (fbmGo_mono name used fs (i0 + 1) _)
      rw [if_neg hu0]
      split
      · exact le_refl _
      · exact le_of_not_lt (by assumption)
    | succ k =>
      simp only [fbmGo]
      have hk2 : k < fs.length := by simpa using hk
      have hu2 : i0 + 1 + k ∉ used := by
        rwa [show i0 + 1 + k = i0 + (k + 1) from by omega]
      exact ih (i0 + 1) _ k hk2 hu2

theorem fbmGo_best (name : List Char) (used : List Nat) :
    ∀ (fs : List (List Char)) (i0 : Nat) (st : FBMState),
      fbmGo name used fs i0 st = st ∨
        ∃ k, ∃ hk : k < fs.length,
          (i0 + k) ∉ used ∧
          (fbmGo name used fs i0 st).best = some (fs.get ⟨k, hk⟩, i0 + k) ∧
          (fbmGo name used fs i0 st).best_score = candScore name (fs.get ⟨k, hk⟩) ∧
          st.best_score < (fbmGo name used fs i0 st).best_score ∧
          ∀ k2, ∀ hk2 : k2 < fs.length, k2 < k → (i0 + k2) ∉ used →
            candScore name (fs.get ⟨k2, hk2⟩) < (fbmGo name used fs i0 st).best_score := by
  intro fs
  induction fs with
  | nil => intro i0 st; left; rfl
  | cons f fs ih =>
    intro i0 st
    by_cases hu : i0 ∈ used
    · have hst : fbmGo name used (f :: fs) i0 st = fbmGo name used fs (i0 + 1) st := by
        simp [fbmGo, hu]
      rcases ih (i0 + 1) st with h | ⟨k, hk, hku, hbest, hscore, hlt, hstrict⟩
      · left; rw [hst, h]
      · right
        refine ⟨k + 1, by simpa using hk, ?_, ?_, ?_, ?_, ?_⟩
        · rwa [show i0 + (k + 1) = i0 + 1 + k from by omega]
        · rw [hst, show i0 + (k + 1) = i0 + 1 + k from by omega]; exact hbest
        · rw [hst]; exact hscore
        · rw [hst]; exact hlt
        · intro k2 hk2 hlt2 hku2
          cases k2 with
          | zero => exact absurd hu (by simpa using hku2)
          | succ k2 =>
            rw [hst]
            exact hstrict k2 (by simpa using hk2) (by omega)
              (by rwa [show i0 + 1 + k2 = i0 + (k2 + 1) from by omega])
    · by_cases hup : st.best_score < candScore name f
      · have hst : fbmGo name used (f :: fs) i0 st
            = fbmGo name used fs (i0 + 1) ⟨candScore name f, some (f, i0)⟩ := by
          simp [fbmGo, hu, hup]
        rcases ih (i0 + 1) ⟨candScore name f, some (f, i0)⟩ with
          h | ⟨k, hk, hku, hbest, hscore, hlt, hstrict⟩
        · right
          refine ⟨0, by simp, by simpa using hu, ?_, ?_, ?_, ?_⟩
          · rw [hst, h]; rfl
          · rw [hst, h]; rfl
          · rw [hst, h]; exact hup
          · intro k2 hk2 h0 _; exact absurd h0 (Nat.not_lt_zero k2)
        · right
          refine ⟨k + 1, by simpa using hk,
            by rwa [show i0 + (k + 1) = i0 + 1 + k from by omega], ?_, ?_, ?_, ?_⟩
          · rw [hst, show i0 + (k + 1) = i0 + 1 + k from by omega]; exact hbest
          · rw [hst]; exact hscore
          · rw [hst]; exact lt_trans hup hlt
          · intro k2 hk2 hlt2 hku2
            cases k2 with
            | zero => rw [hst]; exact hlt
            | succ k2 =>
              rw [hst]
              exact hstrict k2 (by simpa using hk2) (by omega)
                (by rwa [show i0 + 1 + k2 = i0 + (k2 + 1) from by omega])
      · have hst : fbmGo name used (f :: fs) i0 st = fbmGo name used fs (i0 + 1) st := by
          simp [fbmGo, hu, hup]
        rcases ih (i0 + 1) st with h | ⟨k, hk, hku, hbest, hscore, hlt, hstrict⟩
        · left; rw [hst, h]
        · right
          refine ⟨k + 1, by simpa using hk,
            by rwa [show i0 + (k + 1) = i0 + 1 + k from by omega], ?_, ?_, ?_, ?_⟩
          · rw [hst, show i0 + (k + 1) = i0 + 1 + k from by omega]; exact hbest
          · rw [hst]; exact hscore
          · rw [hst]; exact hlt
          · intro k2 hk2 hlt2 hku2
            cases k2 with
            | zero =>
              rw [hst]
              exact lt_of_le_of_lt (le_of_not_lt hup) hlt
            | succ k2 =>
              rw [hst]
              exact hstrict k2 (by simpa using hk2) (by omega)
                (by rwa [show i0 + 1 + k2 = i0 + (k2 + 1) from by omega])

theorem find_best_match_some (name : List Char) (files : List (List Char)) (used : List Nat)
    (m : List Char) (i : Nat) (h : (find_best_match name files used).best = some (m, i)) :
    ∃ hi : i < files.length,
      m = files.get ⟨i, hi⟩ ∧ i ∉ used ∧
      (find_best_match name files used).best_score = candScore name m ∧
      0 < (find_best_match name files used).best_score ∧
      (∀ j, ∀ hj : j < files.length, j < i → j ∉ used →
        candScore name (files.get ⟨j, hj⟩) < candScore name m) ∧
      (∀ j, ∀ hj : j < files.length, j ∉ used →
        candScore name (files.get ⟨j, hj⟩) ≤ candScore name m) := by
  rcases fbmGo_best name used files 0 ⟨0, none⟩ with
    heq | ⟨k, hk, hku, hbest, hscore, hlt, hstrict⟩
  · have : (find_best_match name files used).best = none := by
      show (fbmGo name used files 0 ⟨0, none⟩).best = none
      rw [heq]
    rw [h] at this
    exact absurd this (by simp)
  · have h0k : 0 + k = k := by omega
    rw [h0k] at hbest hku
    have hb : (find_best_match name files used).best = some (files.get ⟨k, hk⟩, k) := hbest
    rw [h] at hb
    have hmk : (m, i) = (files.get ⟨k, hk⟩, k) := Option.some_injective _ hb
    have hm : m = files.get ⟨k, hk⟩ := congrArg Prod.fst hmk
    have hi : i = k := congrArg Prod.snd hmk
    subst hi
    refine ⟨hk, hm, hku, ?_, ?_, ?_, ?_⟩
    · rw [hm]; exact hscore
    · exact lt_of_le_of_lt (le_refl 0) hlt
    · intro j hj hji hju
      rw [hm, ← hscore]
      have h0j : 0 + j = j := by omega
      exact hstrict j hj hji (by rwa [h0j])
    · intro j hj hju
      rw [hm, ← hscore]
      have h0j : 0 + j = j := by omega
      exact fbmGo_cover name used files 0 ⟨0, none⟩ j hj (by rwa [h0j])

theorem find_best_match_none (name : List Char) (files : List (List Char)) (used : List Nat)
    (h : (find_best_match name files used).best = none) :
    (find_best_match name files used).best_score = 0 ∧
      ∀ j, ∀ hj : j < files.length, j ∉ used → candScore name (files.get ⟨j, hj⟩) = 0 := by
  rcases fbmGo_best name used files 0 ⟨0, none⟩ with
    heq | ⟨k, hk, hku, hbest, hscore, hlt, hstrict⟩
  · have hsc : (find_best_match name files used).best_score = 0 := by
      show (fbmGo name used files 0 ⟨0, none⟩).best_score = 0
      rw [heq]
    refine ⟨hsc, fun j hj hju => ?_⟩
    have hle : candScore name (files.get ⟨j, hj⟩)
        ≤ (find_best_match name files used).best_score := by
      have h0j : 0 + j = j := by omega
      exact fbmGo_cover name used files 0 ⟨0, none⟩ j hj (by rwa [h0j])
    rw [hsc] at hle
    exact le_antisymm hle (candScore_nonneg name _)
  · rw [show (find_best_match name files used).best
        = (fbmGo name used files 0 ⟨0, none⟩).best from rfl, hbest] at h
    exact absurd h (by simp)

theorem find_best_match_none_of_zero (name : List Char) (files : List (List Char))
    (used : List Nat)
    (hz : ∀ j, ∀ hj : j < files.length, j ∉ used → candScore name (files.get ⟨j, hj⟩) = 0) :
    (find_best_match name files used).best = none := by
  rcases fbmGo_best name used files 0 ⟨0, none⟩ with
    heq | ⟨k, hk, hku, hbest, hscore, hlt, hstrict⟩
  · show (fbmGo name used files 0 ⟨0, none⟩).best = none
    rw [heq]
  · exfalso
    have h0k : 0 + k = k := by omega
    rw [h0k] at hku
    have hpos : (0 : ℚ) < candScore name (files.get ⟨k, hk⟩) := hscore ▸ hlt
    rw [hz k hk hku] at hpos
    exact absurd hpos (lt_irrefl 0)

/-! ### Invariants of the matching pass -/

theorem doMatchingGo_length (files : List (List Char)) :
    ∀ (ts : List (List Char)) (i : Nat) (used : List Nat) (acc : List MatchRecord),
      (doMatchingGo files ts i used acc).length ≤ acc.length + ts.length := by
  intro ts
  induction ts with
  | nil => intro i used acc; simp [doMatchingGo]
  | cons t ts ih =>
    intro i used acc
    simp only [doMatchingGo]
    split
    · split
      · have := ih (i + 1) used acc
        simp only [List.length_cons]
        omega
      · refine le_trans (ih (i + 1) _ _) ?_
        simp only [List.length_cons]
        omega
    · have := ih (i + 1) used acc
      simp only [List.length_cons]
      omega

theorem doMatchingGo_nodup (files : List (List Char)) :
    ∀ (ts : List (List Char)) (i : Nat) (used : List Nat) (acc : List MatchRecord),
      (∀ r ∈ acc, r.file_index ∈ used) →
      (acc.map MatchRecord.file_index).Nodup →
      ((doMatchingGo files ts i used acc).map MatchRecord.file_index).Nodup := by
  intro ts
  induction ts with
  | nil =>
    intro i used acc _ hnd
    simp only [doMatchingGo, List.map_reverse, List.nodup_reverse]
    exact hnd
  | cons t ts ih =>
    intro i used acc hmem hnd
    simp only [doMatchingGo]
    split
    next m idx heq =>
      split
      · exact ih (i + 1) used acc hmem hnd
      · obtain ⟨hi, hmeq, hnotused, _⟩ := find_best_match_some t files used m idx heq
        apply ih (i + 1) (idx :: used)
        · intro r hr
          rcases List.mem_cons.mp hr with rfl | hr2
          · exact List.mem_cons_self _ _
          · exact List.mem_cons_of_mem _ (hmem r hr2)
        · simp only [List.map_cons, List.nodup_cons]
          constructor
          · intro hcontra
            obtain ⟨r, hr, hre⟩ := List.mem_map.mp hcontra
            exact hnotused (hre ▸ hmem r hr)
          · exact hnd
    next heq => exact ih (i + 1) used acc hmem hnd

theorem doMatchingGo_orders (files playlist : List (List Char)) :
    ∀ (ts : List (List Char)) (j : Nat) (used : List Nat) (acc : List MatchRecord),
      (∀ k, ∀ hk : k < ts.length, playlist[(j + k)]? = some (ts.get ⟨k, hk⟩)) →
      (∀ r ∈ acc, 1 ≤ r.order ∧ r.order ≤ j ∧ playlist[(r.order - 1)]? = some r.playlist_name) →
      ((acc.map MatchRecord.order).Pairwise (· > ·)) →
      (∀ r ∈ doMatchingGo files ts (j + 1) used acc,
          1 ≤ r.order ∧ playlist[(r.order - 1)]? = some r.playlist_name) ∧
        ((doMatchingGo files ts (j + 1) used acc).map MatchRecord.order).Pairwise (· < ·) := by
  intro ts
  induction ts with
  | nil =>
    intro j used acc hts hacc hord
    constructor
    · intro r hr
      simp only [doMatchingGo] at hr
      rw [List.mem_reverse] at hr
      obtain ⟨h1, _, h3⟩ := hacc r hr
      exact ⟨h1, h3⟩
    · simp only [doMatchingGo, List.map_reverse]
      rw [List.pairwise_reverse]
      exact hord
  | cons t ts ih =>
    intro j used acc hts hacc hord
    simp only [doMatchingGo]
    split
    next m idx heq =>
      split
      · refine ih (j + 1) used acc ?_ ?_ ?_
        · intro k hk
          have := hts (k + 1) (by simpa using hk)
          rwa [show j + (k + 1) = j + 1 + k from by omega] at this
        · intro r hr
          obtain ⟨h1, h2, h3⟩ := hacc r hr
          exact ⟨h1, by omega, h3⟩
        · exact hord
      · refine ih (j + 1) (idx :: used) _ ?_ ?_ ?_
        · intro k hk
          have := hts (k + 1) (by simpa using hk)
          rwa [show j + (k + 1) = j + 1 + k from by omega] at this
        · intro r hr
          rcases List.mem_cons.mp hr with rfl | hr2
          · refine ⟨Nat.le_add_left 1 j, Nat.le_refl (j + 1), ?_⟩
            have h0 := hts 0 (by simp)
            rw [show j + 0 = j from by omega] at h0
            exact h0
          · obtain ⟨h1, h2, h3⟩ := hacc r hr2
            exact ⟨h1, by omega, h3⟩
        · simp only [List.map_cons]
          refine List.Pairwise.cons ?_ hord
          intro o ho
          obtain ⟨r, hr, hre⟩ := List.mem_map.mp ho
          have hle := (hacc r hr).2.1
          show o < j + 1
          omega
    next heq =>
      refine ih (j + 1) used acc ?_ ?_ ?_
      · intro k hk
        have := hts (k + 1) (by simpa using hk)
        rwa [show j + (k + 1) = j + 1 + k from by omega] at this
      · intro r hr
        obtain ⟨h1, h2, h3⟩ := hacc r hr
        exact ⟨h1, by omega, h3⟩
      · exact hord

/-! ### Structure of the whitespace-collapsing pass -/

theorem wordsWsGo_good (s : List Char) :
    ∀ cur : List Char, (∀ c ∈ cur, isWs c = false) →
      ∀ w ∈ wordsWsGo cur s, w ≠ [] ∧ ∀ c ∈ w, isWs c = false := by
  induction s with
  | nil =>
    intro cur hcur w hw
    simp only [wordsWsGo] at hw
    split at hw
    · exact absurd hw (List.not_mem_nil w)
    · next hne =>
      rw [List.mem_singleton] at hw
      subst hw
      refine ⟨?_, hcur⟩
      intro hnil
      exact hne (by simp [hnil])
  | cons c cs ih =>
    intro cur hcur w hw
    simp only [wordsWsGo] at hw
    split at hw
    · split at hw
      · exact ih [] (by simp) w hw
      · next hne =>
        rcases List.mem_cons.mp hw with rfl | hw2
        · refine ⟨?_, hcur⟩
          intro hnil
          exact hne (by simp [hnil])
        · exact ih [] (by simp) w hw2
    · next hc =>
      refine ih (cur ++ [c]) ?_ w hw
      intro d hd
      rcases List.mem_append.mp hd with h1 | h2
      · exact hcur d h1
      · rw [List.mem_singleton] at h2
        subst h2
        simpa using hc

theorem wordsWsGo_subset (s : List Char) :
    ∀ (cur w : List Char), w ∈ wordsWsGo cur s → ∀ c ∈ w, c ∈ cur ∨ c ∈ s := by
  induction s with
  | nil =>
    intro cur w hw c hc
    simp only [wordsWsGo] at hw
    split at hw
    · exact absurd hw (List.not_mem_nil w)
    · rw [List.mem_singleton] at hw
      subst hw
      exact Or.inl hc
  | cons d ds ih =>
    intro cur w hw c hc
    simp only [wordsWsGo] at hw
    split at hw
    · split at hw
      · rcases ih [] w hw c hc with h | h
        · exact absurd h (List.not_mem_nil c)
        · exact Or.inr (List.mem_cons_of_mem d h)
      · rcases List.mem_cons.mp hw with rfl | hw2
        · exact Or.inl hc
        · rcases ih [] w hw2 c hc with h | h
          · exact absurd h (List.not_mem_nil c)
          · exact Or.inr (List.mem_cons_of_mem d h)
    · rcases ih (cur ++ [d]) w hw c hc with h | h
      · rcases List.mem_append.mp h with h1 | h2
        · exact Or.inl h1
        · rw [List.mem_singleton] at h2
          subst h2
          exact Or.inr (List.mem_cons_self _ _)
      · exact Or.inr (List.mem_cons_of_mem d h)

theorem wordsWsGo_append (w : List Char) :
    ∀ (cur s : List Char), (∀ c ∈ w, isWs c = false) →
      wordsWsGo cur (w ++ s) = wordsWsGo (cur ++ w) s := by
  induction w with
  | nil => intro cur s _; simp
  | cons c cs ih =>
    intro cur s hall
    have hc : isWs c = false := hall c (List.mem_cons_self c cs)
    simp only [List.cons_append, wordsWsGo]
    rw [if_neg (by simp [hc])]
    show wordsWsGo (cur ++ [c]) (cs ++ s) = wordsWsGo (cur ++ c :: cs) s
    rw [ih (cur ++ [c]) s (fun d hd => hall d (List.mem_cons_of_mem c hd))]
    rw [← List.append_cons]

theorem wordsWs_joinSp (L : List (List Char))
    (hL : ∀ w ∈ L, w ≠ [] ∧ ∀ c ∈ w, isWs c = false) : wordsWs (joinSp L) = L := by
  induction L with
  | nil => rfl
  | cons w L ih =>
    obtain ⟨hw, hwall⟩ := hL w (List.mem_cons_self w L)
    cases L with
    | nil =>
      show wordsWsGo [] (joinSp [w]) = [w]
      calc wordsWsGo [] (joinSp [w]) = wordsWsGo [] (w ++ []) := by
            rw [List.append_nil]
            exact rfl
        _ = wordsWsGo ([] ++ w) [] := wordsWsGo_append w [] [] hwall
        _ = wordsWsGo w [] := by rw [List.nil_append]
        _ = [w] := by
            simp only [wordsWsGo]
            rw [if_neg (by simp [hw])]
    | cons w2 L2 =>
      show wordsWsGo [] (joinSp (w :: w2 :: L2)) = w :: w2 :: L2
      rw [show joinSp (w :: w2 :: L2) = w ++ ' ' :: joinSp (w2 :: L2) from rfl]
      rw [wordsWsGo_append w [] _ hwall, List.nil_append]
      simp only [wordsWsGo]
      rw [if_pos (by decide : isWs ' ' = true)]
      rw [if_neg (by simp [hw])]
      congr 1
      exact ih (fun x hx => hL x (List.mem_cons_of_mem w hx))

theorem mem_joinSp (L : List (List Char)) (c : Char) (hc : c ∈ joinSp L) :
    c = ' ' ∨ ∃ w ∈ L, c ∈ w := by
  induction L with
  | nil => exact absurd hc (List.not_mem_nil c)
  | cons w L ih =>
    cases L with
    | nil => exact Or.inr ⟨w, List.mem_singleton_self w, hc⟩
    | cons w2 L2 =>
      rw [show joinSp (w :: w2 :: L2) = w ++ ' ' :: joinSp (w2 :: L2) from rfl] at hc
      rcases List.mem_append.mp hc with h1 | h2
      · exact Or.inr ⟨w, List.mem_cons_self _ _, h1⟩
      · rcases List.mem_cons.mp h2 with rfl | h3
        · exact Or.inl rfl
        · rcases ih h3 with h | ⟨w3, hw3, hcw3⟩
          · exact Or.inl h
          · exact Or.inr ⟨w3, List.mem_cons_of_mem _ hw3, hcw3⟩

theorem joinSp_head (L : List (List Char))
    (hL : ∀ w ∈ L, w ≠ [] ∧ ∀ c ∈ w, isWs c = false) (hne : L ≠ []) :
    ∃ c t, joinSp L = c :: t ∧ isWs c = false := by
  cases L with
  | nil => exact absurd rfl hne
  | cons w L =>
    obtain ⟨hw, hall⟩ := hL w (List.mem_cons_self w L)
    cases hwc : w with
    | nil => exact absurd hwc hw
    | cons c t0 =>
      have hc : isWs c = false := hall c (by rw [hwc]; exact List.mem_cons_self c t0)
      cases L with
      | nil => exact ⟨c, t0, rfl, hc⟩
      | cons w2 L2 => exact ⟨c, t0 ++ ' ' :: joinSp (w2 :: L2), rfl, hc⟩

theorem joinSp_reverse_head (L : List (List Char)) :
    (∀ w ∈ L, w ≠ [] ∧ ∀ c ∈ w, isWs c = false) → L ≠ [] →
      ∃ c t, (joinSp L).reverse = c :: t ∧ isWs c = false := by
  induction L with
  | nil => intro _ hne; exact absurd rfl hne
  | cons w L ih =>
    intro hL _
    obtain ⟨hw, hall⟩ := hL w (List.mem_cons_self w L)
    cases L with
    | nil =>
      obtain ⟨c, t, hct⟩ : ∃ c t, w.reverse = c :: t := by
        cases hrev : w.reverse with
        | nil => exact absurd (by simpa using hrev) hw
        | cons c t => exact ⟨c, t, rfl⟩
      refine ⟨c, t, hct, ?_⟩
      have hcw : c ∈ w := by
        have : c ∈ w.reverse := by rw [hct]; exact List.mem_cons_self c t
        simpa using this
      exact hall c hcw
    | cons w2 L2 =>
      obtain ⟨c, t, hct, hcws⟩ := ih (fun x hx => hL x (List.mem_cons_of_mem w hx)) (by simp)
      refine ⟨c, (t ++ [' ']) ++ w.reverse, ?_, hcws⟩
      rw [show joinSp (w :: w2 :: L2) = w ++ ' ' :: joinSp (w2 :: L2) from rfl]
      rw [List.reverse_append, List.reverse_cons, hct]
      simp [List.append_assoc]

theorem trimWs_joinSp (L : List (List Char))
    (hL : ∀ w ∈ L, w ≠ [] ∧ ∀ c ∈ w, isWs c = false) : trimWs (joinSp L) = joinSp L := by
  cases hLe : L with
  | nil => rfl
  | cons w L2 =>
    rw [← hLe]
    have hne : L ≠ [] := by rw [hLe]; simp
    obtain ⟨c, t, hct, hc⟩ := joinSp_head L hL hne
    obtain ⟨c2, t2, hct2, hc2⟩ := joinSp_reverse_head L hL hne
    unfold trimWs
    rw [hct, List.dropWhile_cons]
    rw [if_neg (by simp [hc]), ← hct, hct2, List.dropWhile_cons]
    rw [if_neg (by simp [hc2]), ← hct2, List.reverse_reverse]

theorem collapseWs_good (s : List Char) :
    ∀ w ∈ wordsWs s, w ≠ [] ∧ ∀ c ∈ w, isWs c = false :=
  fun w hw => wordsWsGo_good s [] (by simp) w hw

theorem collapseWs_idem (s : List Char) : collapseWs (collapseWs s) = collapseWs s := by
  have htrim : trimWs (joinSp (wordsWs s)) = joinSp (wordsWs s) :=
    trimWs_joinSp _ (collapseWs_good s)
  unfold collapseWs
  rw [htrim, wordsWs_joinSp _ (collapseWs_good s)]
  exact htrim

theorem mem_collapseWs {s : List Char} {c : Char} (hc : c ∈ collapseWs s) :
    c = ' ' ∨ c ∈ s := by
  unfold collapseWs trimWs at hc
  rw [List.mem_reverse] at hc
  have h1 : c ∈ (joinSp (wordsWs s)).dropWhile isWs := by
    have h0 := (List.dropWhile_sublist isWs).subset hc
    rwa [List.mem_reverse] at h0
  have h2 : c ∈ joinSp (wordsWs s) := (List.dropWhile_sublist isWs).subset h1
  rcases mem_joinSp _ c h2 with h | ⟨w, hw, hcw⟩
  · exact Or.inl h
  · rcases wordsWsGo_subset s [] w hw c hcw with h3 | h3
    · exact absurd h3 (List.not_mem_nil c)
    · exact Or.inr h3

theorem foldChar_fix {c : Char} (h1 : c ≠ '：') (h2 : c ≠ '？') (h3 : c ≠ '｜') :
    foldChar c = c := by
  unfold foldChar
  rw [if_neg h1, if_neg h2, if_neg h3]

theorem foldChar_idem (c : Char) : foldChar (foldChar c) = foldChar c := by
  by_cases h1 : c = '：'
  · subst h1; decide
  by_cases h2 : c = '？'
  · subst h2; decide
  by_cases h3 : c = '｜'
  · subst h3; decide
  rw [foldChar_fix h1 h2 h3, foldChar_fix h1 h2 h3]

theorem foldUnicode_fix_of_collapse (z : List Char) :
    foldUnicode (collapseWs (foldUnicode z)) = collapseWs (foldUnicode z) := by
  have hfix : ∀ c ∈ collapseWs (foldUnicode z), foldChar c = c := by
    intro c hc
    rcases mem_collapseWs hc with h | h
    · subst h; decide
    · obtain ⟨d, _, rfl⟩ := List.mem_map.mp h
      exact foldChar_idem d
  unfold foldUnicode
  calc (collapseWs (List.map foldChar z)).map foldChar
      = (collapseWs (List.map foldChar z)).map id := List.map_congr_left hfix
    _ = collapseWs (List.map foldChar z) := List.map_id _

/-! ### Concrete score evaluations -/

theorem seqRatio_ep : seqRatio (lc "ep") (lc "ep") = 1 := by
  rw [seqRatio_eval (m := 2) (p := 2) (q := 2) (by decide) (by decide) (by decide) (by norm_num)]
  norm_num

theorem seqRatio_ab : seqRatio (lc "ab") (lc "ab") = 1 := by
  rw [seqRatio_eval (m := 2) (p := 2) (q := 2) (by decide) (by decide) (by decide) (by norm_num)]
  norm_num

theorem seqRatio_ab_zz : seqRatio (lc "ab") (lc "zz") = 0 := by
  rw [seqRatio_eval (m := 0) (p := 2) (q := 2) (by decide) (by decide) (by decide) (by norm_num)]
  norm_num

theorem seqRatio_aaa_zzz : seqRatio (lc "aaa") (lc "zzz") = 0 := by
  rw [seqRatio_eval (m := 0) (p := 3) (q := 3) (by decide) (by decide) (by decide) (by norm_num)]
  norm_num

theorem candScore_ab_abmp3 : candScore (lc "ab") (lc "ab.mp3") = 1 := by
  show similarity_score (lc "ab") (replaceMp3 (lc "ab.mp3")) = 1
  rw [show replaceMp3 (lc "ab.mp3") = lc "ab" from by decide]
  unfold similarity_score
  rw [show extract_part_number (lc "ab") = none from by decide]
  show blendScore (lc "ab") (lc "ab") = 1
  unfold blendScore
  rw [show toLowerStr (normalize_title (lc "ab")) = lc "ab" from by decide]
  rw [show toLowerStr (normalize_for_comparison (lc "ab")) = lc "ab" from by decide]
  rw [seqRatio_ab]
  norm_num

theorem candScore_ab_zzmp3 : candScore (lc "ab") (lc "zz.mp3") = 0 := by
  show similarity_score (lc "ab") (replaceMp3 (lc "zz.mp3")) = 0
  rw [show replaceMp3 (lc "zz.mp3") = lc "zz" from by decide]
  unfold similarity_score
  rw [show extract_part_number (lc "ab") = none from by decide]
  show blendScore (lc "ab") (lc "zz") = 0
  unfold blendScore
  rw [show toLowerStr (normalize_title (lc "ab")) = lc "ab" from by decide]
  rw [show toLowerStr (normalize_title (lc "zz")) = lc "zz" from by decide]
  rw [show toLowerStr (normalize_for_comparison (lc "ab")) = lc "ab" from by decide]
  rw [show toLowerStr (normalize_for_comparison (lc "zz")) = lc "zz" from by decide]
  rw [seqRatio_ab_zz]
  norm_num

theorem candScore_ab_amp3bmp3 : candScore (lc "ab") (lc "a.mp3b.mp3") = 1 := by
  show similarity_score (lc "ab") (replaceMp3 (lc "a.mp3b.mp3")) = 1
  rw [show replaceMp3 (lc "a.mp3b.mp3") = lc "ab" from by decide]
  unfold similarity_score
  rw [show extract_part_number (lc "ab") = none from by decide]
  show blendScore (lc "ab") (lc "ab") = 1
  unfold blendScore
  rw [show toLowerStr (normalize_title (lc "ab")) = lc "ab" from by decide]
  rw [show toLowerStr (normalize_for_comparison (lc "ab")) = lc "ab" from by decide]
  rw [seqRatio_ab]
  norm_num

theorem candScore_aaa_zzzmp3 : candScore (lc "AAA") (lc "zzz.mp3") = 0 := by
  show similarity_score (lc "AAA") (replaceMp3 (lc "zzz.mp3")) = 0
  rw [show replaceMp3 (lc "zzz.mp3") = lc "zzz" from by decide]
  unfold similarity_score
  rw [show extract_part_number (lc "AAA") = none from by decide]
  show blendScore (lc "AAA") (lc "zzz") = 0
  unfold blendScore
  rw [show toLowerStr (normalize_title (lc "AAA")) = lc "aaa" from by decide]
  rw [show toLowerStr (normalize_title (lc "zzz")) = lc "zzz" from by decide]
  rw [show toLowerStr (normalize_for_comparison (lc "AAA")) = lc "aaa" from by decide]
  rw [show toLowerStr (normalize_for_comparison (lc "zzz")) = lc "zzz" from by decide]
  rw [seqRatio_aaa_zzz]
  norm_num

theorem fbm_eval_two_files :
    find_best_match (lc "ab") [lc "ab.mp3", lc "zz.mp3"] [] = ⟨1, some (lc "ab.mp3", 0)⟩ := by
  norm_num [find_best_match, fbmGo, candScore_ab_abmp3, candScore_ab_zzmp3]

theorem fbm_eval_middle_ext :
    find_best_match (lc "ab") [lc "a.mp3b.mp3"] [] = ⟨1, some (lc "a.mp3b.mp3", 0)⟩ := by
  norm_num [find_best_match, fbmGo, candScore_ab_amp3bmp3]

theorem fbm_eval_no_match :
    find_best_match (lc "AAA") [lc "zzz.mp3"] [] = ⟨0, none⟩ := by
  norm_num [find_best_match, fbmGo, candScore_aaa_zzzmp3]

/-! ### Per-target characterization of the matching pass -/

theorem doMatchingGo_decomp (files : List (List Char)) :
    ∀ (ts : List (List Char)) (i : Nat) (used : List Nat) (acc : List MatchRecord),
      ∃ produced, doMatchingGo files ts i used acc = acc.reverse ++ produced := by
  intro ts
  induction ts with
  | nil => intro i used acc; exact ⟨[], by simp [doMatchingGo]⟩
  | cons t ts ih =>
    intro i used acc
    simp only [doMatchingGo]
    split
    next m idx heq =>
      split
      · exact ih (i + 1) used acc
      · obtain ⟨produced, hp⟩ := ih (i + 1) (idx :: used)
          (⟨i, t, m, (find_best_match t files used).best_score, idx⟩ :: acc)
        refine ⟨⟨i, t, m, (find_best_match t files used).best_score, idx⟩ :: produced, ?_⟩
        rw [hp]
        simp [List.reverse_cons, List.append_assoc]
    next => exact ih (i + 1) used acc

theorem doMatchingGo_mem_src (files : List (List Char)) :
    ∀ (ts : List (List Char)) (i : Nat) (used : List Nat) (acc : List MatchRecord),
      ∀ r ∈ doMatchingGo files ts i used acc, r ∈ acc ∨ i ≤ r.order := by
  intro ts
  induction ts with
  | nil =>
    intro i used acc r hr
    simp only [doMatchingGo] at hr
    rw [List.mem_reverse] at hr
    exact Or.inl hr
  | cons t ts ih =>
    intro i used acc r hr
    simp only [doMatchingGo] at hr
    split at hr
    next m idx heq =>
      split at hr
      · rcases ih (i + 1) used acc r hr with h | h
        · exact Or.inl h
        · exact Or.inr (by omega)
      · rcases ih (i + 1) _ _ r hr with h | h
        · rcases List.mem_cons.mp h with rfl | h2
          · exact Or.inr (Nat.le_refl i)
          · exact Or.inl h2
        · exact Or.inr (by omega)
    next =>
      rcases ih (i + 1) used acc r hr with h | h
      · exact Or.inl h
      · exact Or.inr (by omega)

theorem doMatchingGo_matched_mem (files : List (List Char)) :
    ∀ (ts : List (List Char)) (k : Nat) (hk : k < ts.length) (i : Nat) (used : List Nat)
      (acc : List MatchRecord) (m : List Char) (idx : Nat),
      (find_best_match (ts.get ⟨k, hk⟩) files (usedAfter files (ts.take k) used)).best
          = some (m, idx) →
      m ≠ [] →
      (⟨i + k, ts.get ⟨k, hk⟩, m,
        (find_best_match (ts.get ⟨k, hk⟩) files (usedAfter files (ts.take k) used)).best_score,
        idx⟩ : MatchRecord) ∈ doMatchingGo files ts i used acc := by
  intro ts
  induction ts with
  | nil => intro k hk; exact absurd hk (by simp)
  | cons t ts ih =>
    intro k hk i used acc m idx hbest hm
    cases k with
    | zero =>
      have hbest2 : (find_best_match t files used).best = some (m, idx) := hbest
      simp only [doMatchingGo]
      rw [hbest2]
      show (⟨i, t, m, (find_best_match t files used).best_score, idx⟩ : MatchRecord)
          ∈ (if m = [] then doMatchingGo files ts (i + 1) used acc
            else doMatchingGo files ts (i + 1) (idx :: used)
              (⟨i, t, m, (find_best_match t files used).best_score, idx⟩ :: acc))
      rw [if_neg hm]
      obtain ⟨produced, hp⟩ := doMatchingGo_decomp files ts (i + 1) (idx :: used)
        (⟨i, t, m, (find_best_match t files used).best_score, idx⟩ :: acc)
      rw [hp]
      exact List.mem_append.mpr (Or.inl (List.mem_reverse.mpr (List.mem_cons_self _ _)))
    | succ k =>
      simp only [doMatchingGo]
      rcases hb : (find_best_match t files used).best with _ | ⟨m2, idx2⟩
      · have hu : usedAfter files ((t :: ts).take (k + 1)) used
            = usedAfter files (ts.take k) used := by
          show usedAfter files (t :: ts.take k) used = _
          simp only [usedAfter]
          rw [hb]
        rw [hu] at hbest ⊢
        show _ ∈ doMatchingGo files ts (i + 1) used acc
        rw [show i + (k + 1) = i + 1 + k from by omega]
        exact ih k (by simpa using hk) (i + 1) used acc m idx hbest hm
      · by_cases hm2 : m2 = []
        · have hu : usedAfter files ((t :: ts).take (k + 1)) used
              = usedAfter files (ts.take k) used := by
            show usedAfter files (t :: ts.take k) used = _
            simp only [usedAfter]
            rw [hb]
            show (if m2 = [] then usedAfter files (ts.take k) used
                else usedAfter files (ts.take k) (idx2 :: used))
              = usedAfter files (ts.take k) used
            rw [if_pos hm2]
          rw [hu] at hbest ⊢
          show _ ∈ (if m2 = [] then doMatchingGo files ts (i + 1) used acc
              else doMatchingGo files ts (i + 1) (idx2 :: used)
                (⟨i, t, m2, (find_best_match t files used).best_score, idx2⟩ :: acc))
          rw [if_pos hm2]
          rw [show i + (k + 1) = i + 1 + k from by omega]
          exact ih k (by simpa using hk) (i + 1) used acc m idx hbest hm
        · have hu : usedAfter files ((t :: ts).take (k + 1)) used
              = usedAfter files (ts.take k) (idx2 :: used) := by
            show usedAfter files (t :: ts.take k) used = _
            simp only [usedAfter]
            rw [hb]
            show (if m2 = [] then usedAfter files (ts.take k) used
                else usedAfter files (ts.take k) (idx2 :: used))
              = usedAfter files (ts.take k) (idx2 :: used)
            rw [if_neg hm2]
          rw [hu] at hbest ⊢
          show _ ∈ (if m2 = [] then doMatchingGo files ts (i + 1) used acc
              else doMatchingGo files ts (i + 1) (idx2 :: used)
                (⟨i, t, m2, (find_best_match t files used).best_score, idx2⟩ :: acc))
          rw [if_neg hm2]
          rw [show i + (k + 1) = i + 1 + k from by omega]
          exact ih k (by simpa using hk) (i + 1) (idx2 :: used) _ m idx hbest hm

theorem doMatchingGo_unmatched_none (files : List (List Char)) :
    ∀ (ts : List (List Char)) (k : Nat) (hk : k < ts.length) (i : Nat) (used : List Nat)
      (acc : List MatchRecord),
      (∀ r ∈ acc, r.order < i) →
      ((find_best_match (ts.get ⟨k, hk⟩) files (usedAfter files (ts.take k) used)).best
          = none ∨
        ∃ idx, (find_best_match (ts.get ⟨k, hk⟩) files
            (usedAfter files (ts.take k) used)).best = some ([], idx)) →
      ∀ r ∈ doMatchingGo files ts i used acc, r.order ≠ i + k := by
  intro ts
  induction ts with
  | nil => intro k hk; exact absurd hk (by simp)
  | cons t ts ih =>
    intro k hk i used acc hacc hbad r hr
    cases k with
    | zero =>
      have hbad2 : (find_best_match t files used).best = none ∨
          ∃ idx, (find_best_match t files used).best = some ([], idx) := hbad
      simp only [doMatchingGo] at hr
      rcases hb : (find_best_match t files used).best with _ | ⟨m2, idx2⟩
      · rw [hb] at hr
        have hr2 : r ∈ doMatchingGo files ts (i + 1) used acc := hr
        rcases doMatchingGo_mem_src files ts (i + 1) used acc r hr2 with h | h
        · have := hacc r h
          omega
        · omega
      · have hm2 : m2 = [] := by
          rcases hbad2 with h | ⟨idx3, h⟩
          · rw [hb] at h
            cases h
          · rw [hb] at h
            exact congrArg Prod.fst (Option.some_injective _ h)
        rw [hb] at hr
        have hr2 : r ∈ (if m2 = [] then doMatchingGo files ts (i + 1) used acc
            else doMatchingGo files ts (i + 1) (idx2 :: used)
              (⟨i, t, m2, (find_best_match t files used).best_score, idx2⟩ :: acc)) := hr
        rw [if_pos hm2] at hr2
        rcases doMatchingGo_mem_src files ts (i + 1) used acc r hr2 with h | h
        · have := hacc r h
          omega
        · omega
    | succ k =>
      simp only [doMatchingGo] at hr
      rcases hb : (find_best_match t files used).best with _ | ⟨m2, idx2⟩
      · have hu : usedAfter files ((t :: ts).take (k + 1)) used
            = usedAfter files (ts.take k) used := by
          show usedAfter files (t :: ts.take k) used = _
          simp only [usedAfter]
          rw [hb]
        rw [hu] at hbad
        rw [hb] at hr
        have hr2 : r ∈ doMatchingGo files ts (i + 1) used acc := hr
        have hne := ih k (by simpa using hk) (i + 1) used acc
          (fun r2 h2 => by have := hacc r2 h2; omega) hbad r hr2
        omega
      · by_cases hm2 : m2 = []
        · have hu : usedAfter files ((t :: ts).take (k + 1)) used
              = usedAfter files (ts.take k) used := by
            show usedAfter files (t :: ts.take k) used = _
            simp only [usedAfter]
            rw [hb]
            show (if m2 = [] then usedAfter files (ts.take k) used
                else usedAfter files (ts.take k) (idx2 :: used))
              = usedAfter files (ts.take k) used
            rw [if_pos hm2]
          rw [hu] at hbad
          rw [hb] at hr
          have hr2 : r ∈ (if m2 = [] then doMatchingGo files ts (i + 1) used acc
              else doMatchingGo files ts (i + 1) (idx2 :: used)
                (⟨i, t, m2, (find_best_match t files used).best_score, idx2⟩ :: acc)) := hr
          rw [if_pos hm2] at hr2
          have hne := ih k (by simpa using hk) (i + 1) used acc
            (fun r2 h2 => by have := hacc r2 h2; omega) hbad r hr2
          omega
        · have hu : usedAfter files ((t :: ts).take (k + 1)) used
              = usedAfter files (ts.take k) (idx2 :: used) := by
            show usedAfter files (t :: ts.take k) used = _
            simp only [usedAfter]
            rw [hb]
            show (if m2 = [] then usedAfter files (ts.take k) used
                else usedAfter files (ts.take k) (idx2 :: used))
              = usedAfter files (ts.take k) (idx2 :: used)
            rw [if_neg hm2]
          rw [hu] at hbad
          rw [hb] at hr
          have hr2 : r ∈ (if m2 = [] then doMatchingGo files ts (i + 1) used acc
              else doMatchingGo files ts (i + 1) (idx2 :: used)
                (⟨i, t, m2, (find_best_match t files used).best_score, idx2⟩ :: acc)) := hr
          rw [if_neg hm2] at hr2
          have hacc2 : ∀ r2 ∈ (⟨i, t, m2, (find_best_match t files used).best_score, idx2⟩
              :: acc : List MatchRecord), r2.order < i + 1 := by
            intro r2 h2
            rcases List.mem_cons.mp h2 with rfl | h3
            · exact Nat.lt_succ_self i
            · have := hacc r2 h3
              omega
          have hne := ih k (by simpa using hk) (i + 1) (idx2 :: used) _ hacc2 hbad r hr2
          omega

theorem fbm_eval_single :
    find_best_match (lc "ab") [lc "ab.mp3"] [] = ⟨1, some (lc "ab.mp3", 0)⟩ := by
  norm_num [find_best_match, fbmGo, candScore_ab_abmp3]

theorem fbm_eval_all_consumed :
    find_best_match (lc "ab") [lc "ab.mp3"] [0] = ⟨0, none⟩ := by
  norm_num [find_best_match, fbmGo]

theorem do_matching_single_run :
    do_matching [lc "ab"] [lc "ab.mp3", lc "zz.mp3"]
      = [⟨1, lc "ab", lc "ab.mp3", 1, 0⟩] := by
  show doMatchingGo [lc "ab.mp3", lc "zz.mp3"] [lc "ab"] 1 [] [] = _
  simp only [doMatchingGo]
  rw [fbm_eval_two_files]
  show (if lc "ab.mp3" = [] then
        doMatchingGo [lc "ab.mp3", lc "zz.mp3"] [] 2 [] []
      else doMatchingGo [lc "ab.mp3", lc "zz.mp3"] [] 2 [0]
        [⟨1, lc "ab", lc "ab.mp3", (⟨1, some (lc "ab.mp3", 0)⟩ : FBMState).best_score, 0⟩])
      = [⟨1, lc "ab", lc "ab.mp3", 1, 0⟩]
  rw [if_neg (by decide)]
  rfl

theorem do_matching_consumed_run :
    do_matching [lc "ab", lc "ab"] [lc "ab.mp3"] = [⟨1, lc "ab", lc "ab.mp3", 1, 0⟩] := by
  show doMatchingGo [lc "ab.mp3"] [lc "ab", lc "ab"] 1 [] [] = _
  simp only [doMatchingGo]
  rw [fbm_eval_single]
  show (if lc "ab.mp3" = [] then
        doMatchingGo [lc "ab.mp3"] [lc "ab"] 2 [] []
      else doMatchingGo [lc "ab.mp3"] [lc "ab"] 2 [0]
        [⟨1, lc "ab", lc "ab.mp3", (⟨1, some (lc "ab.mp3", 0)⟩ : FBMState).best_score, 0⟩])
      = [⟨1, lc "ab", lc "ab.mp3", 1, 0⟩]
  rw [if_neg (by decide)]
  simp only [doMatchingGo]
  rw [fbm_eval_all_consumed]
  rfl

theorem do_matching_zero_score_run :
    do_matching [lc "AAA"] [lc "zzz.mp3"] = [] := by
  show doMatchingGo [lc "zzz.mp3"] [lc "AAA"] 1 [] [] = []
  simp only [doMatchingGo]
  rw [fbm_eval_no_match]
  rfl

/-! ### Claim theorems -/

/-- C1 (amended): the matching pass produces exactly one MatchRecord per
matched target, in playlist order (orders strictly increasing, each record's
order pointing back at its target), and no record at all for an unmatched
target.  Writing `usedAfter files (playlist.take k) []` for the consumed set
the pass has accumulated at the k-th target: whenever `find_best_match`
returns a truthy best match there, the corresponding record (order `k + 1`,
that target, that file, that score, that index) is in the output — together
with the strictly increasing orders, it is the unique record of that order;
and whenever it returns no match (or a falsy empty-string match), no record
with order `k + 1` exists.  The concrete runs exhibit a matched target
producing its record, the all-candidates-consumed case, the all-scores-zero
case, and the empty pool, the last three producing no record. -/
theorem do_matching_records_matched_only (playlist files : List (List Char)) :
    (do_matching playlist files).length ≤ playlist.length ∧
    ((do_matching playlist files).map MatchRecord.order).Pairwise (· < ·) ∧
    (∀ r ∈ do_matching playlist files,
        1 ≤ r.order ∧ playlist[(r.order - 1)]? = some r.playlist_name) ∧
    (∀ k, ∀ hk : k < playlist.length, ∀ m idx,
      (find_best_match (playlist.get ⟨k, hk⟩) files
          (usedAfter files (playlist.take k) [])).best = some (m, idx) → m ≠ [] →
        (⟨k + 1, playlist.get ⟨k, hk⟩, m,
          (find_best_match (playlist.get ⟨k, hk⟩) files
            (usedAfter files (playlist.take k) [])).best_score, idx⟩ : MatchRecord)
          ∈ do_matching playlist files) ∧
    (∀ k, ∀ hk : k < playlist.length,
      ((find_best_match (playlist.get ⟨k, hk⟩) files
          (usedAfter files (playlist.take k) [])).best = none ∨
        ∃ idx, (find_best_match (playlist.get ⟨k, hk⟩) files
          (usedAfter files (playlist.take k) [])).best = some ([], idx)) →
      ∀ r ∈ do_matching playlist files, r.order ≠ k + 1) ∧
    do_matching [lc "ab"] [lc "ab.mp3", lc "zz.mp3"] = [⟨1, lc "ab", lc "ab.mp3", 1, 0⟩] ∧
    do_matching [lc "ab", lc "ab"] [lc "ab.mp3"] = [⟨1, lc "ab", lc "ab.mp3", 1, 0⟩] ∧
    do_matching [lc "AAA"] [lc "zzz.mp3"] = [] ∧
    do_matching [lc "A"] [] = [] := by
  have horders := doMatchingGo_orders files playlist playlist 0 [] []
    (fun k hk => by
      rw [Nat.zero_add, List.getElem?_eq_getElem hk]
      rfl)
    (fun r hr => absurd hr (List.not_mem_nil r))
    (by simp)
  refine ⟨?_, horders.2, horders.1, ?_, ?_,
    do_matching_single_run, do_matching_consumed_run, do_matching_zero_score_run, rfl⟩
  · have := doMatchingGo_length files playlist 1 [] []
    simpa using this
  · intro k hk m idx hbest hm
    have := doMatchingGo_matched_mem files playlist k hk 1 [] [] m idx hbest hm
    rwa [show 1 + k = k + 1 from by omega] at this
  · intro k hk hbad r hr
    have := doMatchingGo_unmatched_none files playlist k hk 1 [] []
      (fun r2 h2 => absurd h2 (List.not_mem_nil r2)) hbad r hr
    omega

/-- Counterexample to C1 as stated: with one target and an empty candidate
pool the pass produces zero records, not one absent-match record per
target. -/
theorem do_matching_missing_record :
    (do_matching [lc "A"] []).length = 0 ∧ ([lc "A"] : List (List Char)).length = 1 :=
  ⟨rfl, rfl⟩

/-- C2: no candidate index appears in more than one MatchRecord of a matching
pass — each selected index is added to the consumed set and skipped by all
later targets. -/
theorem do_matching_indices_nodup (playlist files : List (List Char)) :
    ((do_matching playlist files).map MatchRecord.file_index).Nodup :=
  doMatchingGo_nodup files playlist 1 [] []
    (fun r hr => absurd hr (List.not_mem_nil r)) List.nodup_nil

/-- C3 (amended): normalize_title is idempotent on every input whose
normalized form the brand-suffix sub leaves unchanged (one suffix strip, the
unicode fold, whitespace collapse and trim are each stable on a second pass);
the unconditional claim fails when stripping one trailing brand suffix exposes
another, see the counterexample. -/
theorem normalize_title_idempotent_of_suffix_free (x : List Char)
    (h : brandSub (normalize_title x) = normalize_title x) :
    normalize_title (normalize_title x) = normalize_title x := by
  show collapseWs (foldUnicode (brandSub (normalize_title x))) = normalize_title x
  rw [h]
  show collapseWs (foldUnicode (collapseWs (foldUnicode (brandSub x)))) = normalize_title x
  rw [foldUnicode_fix_of_collapse (brandSub x)]
  exact collapseWs_idem (foldUnicode (brandSub x))

/-- Witness for C3 (amended) at a concrete input. -/
theorem normalize_title_idempotent_witness :
    brandSub (normalize_title (lc "Episode Name")) = normalize_title (lc "Episode Name") ∧
    normalize_title (normalize_title (lc "Episode Name")) = normalize_title (lc "Episode Name") :=
  ⟨by decide, normalize_title_idempotent_of_suffix_free (lc "Episode Name") (by decide)⟩

/-- Counterexample to C3 as stated: a title ending in a doubled brand suffix
loses one suffix per normalize_title pass, so the function is not
idempotent. -/
theorem normalize_title_not_idempotent :
    normalize_title (normalize_title (lc "X | BEHIND THE BASTARDS | BEHIND THE BASTARDS"))
      ≠ normalize_title (lc "X | BEHIND THE BASTARDS | BEHIND THE BASTARDS") := by
  decide

/-- C4 (amended): normalize_for_comparison removes a leading
`Part <word-or-digits>:` marker only with an ASCII colon (and exactly one
space after `Part`), and a leading `Pt <digits>:` marker with ASCII or
full-width colon, then applies normalize_title; a title starting with
`Part One：` (full-width colon) keeps its marker, only the colon being folded
to ASCII by the normalizer. -/
theorem normalize_for_comparison_marker_behavior :
    (∀ s : List Char, partSub (lc "Part One:" ++ s) = s.dropWhile isWs) ∧
    normalize_for_comparison (lc "Part One: Ep") = lc "Ep" ∧
    normalize_for_comparison (lc "Pt 1：Ep") = lc "Ep" ∧
    normalize_for_comparison (lc "Part One：Ep") = lc "Part One:Ep" :=
  ⟨fun _ => rfl, by decide, by decide, by decide⟩

/-- Counterexample to C4 as stated: a title starting with `Part One：`
(full-width colon) does not have that marker removed — the Part-form sub
requires an ASCII colon, so only the colon gets folded by normalize_title. -/
theorem normalize_for_comparison_fullwidth_colon_kept :
    normalize_for_comparison (lc "Part One：Ep") = lc "Part One:Ep" ∧
    normalize_for_comparison (lc "Part One：Ep") ≠ lc "Ep" :=
  ⟨by decide, by decide⟩

/-- C5: when both extracted part numbers are present and unequal,
similarity_score equals 0.3 times the edit-similarity ratio of the
part-stripped, lower-cased titles; in particular the two-part example scores
below 0.7. -/
theorem similarity_score_penalty_branch (a b : List Char) (pa pb : Nat)
    (ha : extract_part_number a = some pa) (hb : extract_part_number b = some pb)
    (hne : pa ≠ pb) :
    similarity_score a b
        = 3 / 10 * seqRatio (toLowerStr (normalize_for_comparison a))
            (toLowerStr (normalize_for_comparison b)) ∧
      similarity_score (lc "Part One: Ep") (lc "Part Two: Ep") < 7 / 10 := by
  constructor
  · unfold similarity_score
    rw [ha, hb]
    show (if pa = pb then blendScore a b else penaltyScore a b) = _
    rw [if_neg hne]
    unfold penaltyScore
    ring
  · unfold similarity_score
    rw [show extract_part_number (lc "Part One: Ep") = some 1 from by decide]
    rw [show extract_part_number (lc "Part Two: Ep") = some 2 from by decide]
    show (if (1 : Nat) = 2 then blendScore (lc "Part One: Ep") (lc "Part Two: Ep")
        else penaltyScore (lc "Part One: Ep") (lc "Part Two: Ep")) < 7 / 10
    rw [if_neg (by norm_num)]
    unfold penaltyScore
    rw [show toLowerStr (normalize_for_comparison (lc "Part One: Ep")) = lc "ep" from by decide]
    rw [show toLowerStr (normalize_for_comparison (lc "Part Two: Ep")) = lc "ep" from by decide]
    rw [seqRatio_ep]
    norm_num

/-- Witness for C5 at the concrete pair of the spec. -/
theorem similarity_score_penalty_branch_witness :
    extract_part_number (lc "Part One: Ep") = some 1 ∧
    extract_part_number (lc "Part Two: Ep") = some 2 ∧
    (1 : Nat) ≠ 2 ∧
    (similarity_score (lc "Part One: Ep") (lc "Part Two: Ep")
        = 3 / 10 * seqRatio (toLowerStr (normalize_for_comparison (lc "Part One: Ep")))
            (toLowerStr (normalize_for_comparison (lc "Part Two: Ep"))) ∧
      similarity_score (lc "Part One: Ep") (lc "Part Two: Ep") < 7 / 10) :=
  ⟨by decide, by decide, by norm_num,
    similarity_score_penalty_branch (lc "Part One: Ep") (lc "Part Two: Ep") 1 2
      (by decide) (by decide) (by norm_num)⟩

/-- C6: extract_part_number matches only at the very start of the raw string
and requires an ASCII or full-width colon immediately after the number; word
forms One..Ten yield 1-10, digit forms parse directly, and the three negative
shapes of the claim all yield absent. -/
theorem extract_part_number_anchored_colon :
    extract_part_number (lc "Part One: X") = some 1 ∧
    extract_part_number (lc "Part One：X") = some 1 ∧
    extract_part_number (lc "Part Two: X") = some 2 ∧
    extract_part_number (lc "Part Three: X") = some 3 ∧
    extract_part_number (lc "Part Four: X") = some 4 ∧
    extract_part_number (lc "Part Five: X") = some 5 ∧
    extract_part_number (lc "Part Six: X") = some 6 ∧
    extract_part_number (lc "Part Seven: X") = some 7 ∧
    extract_part_number (lc "Part Eight: X") = some 8 ∧
    extract_part_number (lc "Part Nine: X") = some 9 ∧
    extract_part_number (lc "Part Ten: X") = some 10 ∧
    extract_part_number (lc "Part 5: X") = some 5 ∧
    extract_part_number (lc "Pt 42: X") = some 42 ∧
    extract_part_number (lc "Part Eleven: X") = none ∧
    extract_part_number (lc "Part One X") = none ∧
    extract_part_number (lc "Title Part One: X") = none := by
  decide

/-- C7: a selected candidate is unused, its score strictly exceeds every
earlier unused candidate's score (so the earliest index wins among equal top
scores) and is at least every unused candidate's score; the embedding is a
pure function of its inputs, so the whole output is deterministic. -/
theorem find_best_match_strict_improvement (name : List Char) (files : List (List Char))
    (used : List Nat) (m : List Char) (i : Nat)
    (h : (find_best_match name files used).best = some (m, i)) :
    ∃ hi : i < files.length,
      m = files.get ⟨i, hi⟩ ∧ i ∉ used ∧
      (find_best_match name files used).best_score = candScore name m ∧
      (∀ j, ∀ hj : j < files.length, j < i → j ∉ used →
        candScore name (files.get ⟨j, hj⟩) < candScore name m) ∧
      (∀ j, ∀ hj : j < files.length, j ∉ used →
        candScore name (files.get ⟨j, hj⟩) ≤ candScore name m) := by
  obtain ⟨hi, h1, h2, h3, _, h5, h6⟩ := find_best_match_some name files used m i h
  exact ⟨hi, h1, h2, h3, h5, h6⟩

/-- Witness for C7 at a concrete two-candidate pool. -/
theorem find_best_match_strict_improvement_witness :
    ((find_best_match (lc "ab") [lc "ab.mp3", lc "zz.mp3"] []).best
        = some (lc "ab.mp3", 0)) ∧
    (∃ hi : 0 < ([lc "ab.mp3", lc "zz.mp3"] : List (List Char)).length,
      lc "ab.mp3" = ([lc "ab.mp3", lc "zz.mp3"] : List (List Char)).get ⟨0, hi⟩ ∧
      0 ∉ ([] : List Nat) ∧
      (find_best_match (lc "ab") [lc "ab.mp3", lc "zz.mp3"] []).best_score
          = candScore (lc "ab") (lc "ab.mp3") ∧
      (∀ j, ∀ hj : j < ([lc "ab.mp3", lc "zz.mp3"] : List (List Char)).length,
        j < 0 → j ∉ ([] : List Nat) →
          candScore (lc "ab") (([lc "ab.mp3", lc "zz.mp3"] : List (List Char)).get ⟨j, hj⟩)
            < candScore (lc "ab") (lc "ab.mp3")) ∧
      (∀ j, ∀ hj : j < ([lc "ab.mp3", lc "zz.mp3"] : List (List Char)).length,
        j ∉ ([] : List Nat) →
          candScore (lc "ab") (([lc "ab.mp3", lc "zz.mp3"] : List (List Char)).get ⟨j, hj⟩)
            ≤ candScore (lc "ab") (lc "ab.mp3"))) :=
  ⟨congrArg FBMState.best fbm_eval_two_files,
    find_best_match_strict_improvement (lc "ab") [lc "ab.mp3", lc "zz.mp3"] []
      (lc "ab.mp3") 0 (congrArg FBMState.best fbm_eval_two_files)⟩

/-- C8 (amended): extract_part_number returns absent or a natural number;
digit forms parse directly and may yield 0 (for `Part 0:` or `Pt 0:`), so the
result is not always positive, while word forms yield 1 through 10. -/
theorem extract_part_number_range :
    extract_part_number (lc "Part 0: T") = some 0 ∧
    extract_part_number (lc "Pt 0: T") = some 0 ∧
    extract_part_number (lc "Part One: T") = some 1 ∧
    extract_part_number (lc "Part Ten: T") = some 10 := by
  decide

/-- Counterexample to C8 as stated: `Part 0: X` yields the non-positive part
number 0. -/
theorem extract_part_number_zero :
    extract_part_number (lc "Part 0: X") = some 0 ∧ ¬ 0 < (0 : Nat) :=
  ⟨by decide, by decide⟩

/-- C9: the string the matcher scores is the candidate with every occurrence
of `.mp3` removed (Python str.replace), not just a trailing extension — a
middle occurrence is deleted too, and the matcher then scores the fully
stripped string (here to a perfect 1). -/
theorem replaceMp3_removes_all_occurrences :
    replaceMp3 (lc "a.mp3b.mp3") = lc "ab" ∧
    replaceMp3 (lc "a.mp3b.mp3") ≠ lc "a.mp3b" ∧
    (find_best_match (lc "ab") [lc "a.mp3b.mp3"] []).best_score = 1 :=
  ⟨by decide, by decide, congrArg FBMState.best_score fbm_eval_middle_ext⟩

/-- C10: find_best_match returns an absent result exactly when every unused
candidate scores 0 against the target (vacuously, when no unused candidate
exists); an absent result carries score 0, and a target can receive an absent
match even while unused candidates remain in the pool. -/
theorem find_best_match_none_iff_all_scores_zero (name : List Char)
    (files : List (List Char)) (used : List Nat) :
    ((find_best_match name files used).best = none ↔
      ∀ j, ∀ hj : j < files.length, j ∉ used → candScore name (files.get ⟨j, hj⟩) = 0) ∧
    ((find_best_match name files used).best = none →
      (find_best_match name files used).best_score = 0) ∧
    ((find_best_match (lc "AAA") [lc "zzz.mp3"] []).best = none ∧
      0 < ([lc "zzz.mp3"] : List (List Char)).length) := by
  refine ⟨⟨fun h => (find_best_match_none name files used h).2,
      fun hz => find_best_match_none_of_zero name files used hz⟩,
    fun h => (find_best_match_none name files used h).1,
    congrArg FBMState.best fbm_eval_no_match, by simp⟩
